import Mathlib

/-!
Shallow embedding of `lib/tls/mbedtls/mbedtls-session.c`: the per-vhost TLS
session resumption cache.  The cache is a doubly linked list kept in
LRU -> MRU order, with name lookup, head eviction at capacity, one single-shot
TTL sul per entry, and a destroy helper shared by the expiry callback, the
eviction path and vhost teardown.

Entries are identified by `eid`, the allocation identity of the C node (the
malloc'ed pointer); session blobs are opaque `Nat` tokens; the mbedtls engine
and the sul scheduler are collaborators whose results enter as parameters
(`eng`, and the `expire` event firing only for armed suls).
-/

/-- A cache entry (`lws_tls_scm_t`): dll2 node carrying the mbedtls session
blob, its TTL sul, and the name string overallocated behind the node.
`eid` is the allocation identity of the node.  `sess` is `none` when the
embedded mbedtls session holds no blob (freed/reset). `sulDelayUs` is the
delay the entry's sul was scheduled with at creation. -/
structure SEntry where
  eid : Nat
  key : String
  sess : Option Nat
  sulDelayUs : Nat
deriving DecidableEq

/-- The per-vhost state the cache touches: the
`LWS_SERVER_OPTION_DISABLE_TLS_SESSION_CACHE` option bit, the configured
`tls_session_cache_max` and `tls.tls_session_cache_ttl`, the `tls_sessions`
dll2 owner list (head first, LRU -> MRU), the allocation counter producing
fresh node identities, and the identities of entries whose TTL sul is
currently scheduled (armed). -/
structure VhState where
  disable : Bool
  cmax : Nat
  ttl : Nat
  sessions : List SEntry
  nextEid : Nat
  armed : List Nat
deriving DecidableEq

/-- First node of `l` satisfying `p`, together with the nodes before and
after it: the dll2 context needed to model removal or move-to-tail of the
found node. -/
def splitFirst (p : SEntry → Bool) : List SEntry → Option (List SEntry × SEntry × List SEntry)
  | [] => none
  | e :: t =>
    if p e then some ([], e, t)
    else (splitFirst p t).map (fun r => (e :: r.1, r.2.1, r.2.2))

/-- Translation of `__lws_tls_session_lookup_by_name`: walk the vhost list
from the head and return the first entry whose overallocated name
strcmp-matches `name` (with its list context). -/
def __lws_tls_session_lookup_by_name (l : List SEntry) (name : String) :
    Option (List SEntry × SEntry × List SEntry) :=
  splitFirst (fun e => e.key == name) l

/-- Translation of `__lws_tls_session_destroy`: `lws_sul_cancel` on the
entry's sul, `mbedtls_ssl_session_free` on its blob, `lws_dll2_remove` from
the owner list and `lws_free` of the node — the node identity `eid` leaves
both the list and the armed set. -/
def __lws_tls_session_destroy (st : VhState) (eid : Nat) : VhState :=
  { st with
    armed := st.armed.erase eid,
    sessions := st.sessions.filter (fun e => e.eid != eid) }

/-- Observable outcome of `lws_tls_reuse_session`: the vhost state after the
call, whether `wsi->tls_session_reused` was set (the spec contract's
try_reuse boolean), whether the vhost lock was taken, and the argument of
the `mbedtls_ssl_set_session` call when one was made (outer `some` iff
set_session was called; the inner option is the entry's blob, which the
entry keeps — the engine borrows it). -/
structure ReuseResult where
  vh : VhState
  hit : Bool
  lockTaken : Bool
  installed : Option (Option Nat)
deriving DecidableEq

/-- Translation of `lws_tls_reuse_session`: bail before taking the vhost
lock when the cache is disabled; otherwise lock, look the derived name up,
and on a hit set `tls_session_reused`, hand the stored session to
`mbedtls_ssl_set_session`, and move the entry to the tail (MRU) of the
list. -/
def lws_tls_reuse_session (st : VhState) (name : String) : ReuseResult :=
  if st.disable then ⟨st, false, false, none⟩
  else
    match __lws_tls_session_lookup_by_name st.sessions name with
    | none => ⟨st, false, true, none⟩
    | some (pre, e, post) =>
      ⟨{ st with sessions := pre ++ post ++ [e] }, true, true, some e.sess⟩

/-- Observable outcome of `lws_tls_session_new_mbedtls`: the vhost state
after the call, the C return value as a Bool (`true` for 1), the identities
of the entries destroyed during the call, and whether `lws_sul_schedule`
was invoked (a new TTL sul armed). `none` for the whole result models
undefined behaviour. -/
structure CommitResult where
  vh : VhState
  ret : Bool
  destroyed : List Nat
  sulScheduled : Bool
deriving DecidableEq

/-- Translation of `lws_tls_session_new_mbedtls` (commit after handshake).
`allocOk` is whether `lws_malloc` succeeds, `eng` the result of
`mbedtls_ssl_get_session` (`none` = no session available).  Miss path: when
`count == cache_max`, destroy the list head first (when the list is empty
this is `lws_container_of(NULL)` followed by dereferences — undefined
behaviour, modelled as `none`); then allocate; then ask the engine; only on
success append at the tail and schedule the TTL sul.  Hit path: free the
stored blob, ask the engine, and on success store the new blob and move the
entry to the tail; on failure bail leaving the entry in place with no
blob. -/
def lws_tls_session_new_mbedtls (st : VhState) (name : String)
    (allocOk : Bool) (eng : Option Nat) : Option CommitResult :=
  if st.disable then some ⟨st, false, [], false⟩
  else
    match __lws_tls_session_lookup_by_name st.sessions name with
    | none =>
      let ev : Option (VhState × List Nat) :=
        if st.sessions.length = st.cmax then
          match st.sessions with
          | [] => none
          | h :: _ => some (__lws_tls_session_destroy st h.eid, [h.eid])
        else some (st, [])
      match ev with
      | none => none
      | some (st1, ds) =>
        if allocOk = false then some ⟨st1, false, ds, false⟩
        else
          match eng with
          | none => some ⟨st1, false, ds, false⟩
          | some s =>
            some ⟨{ st1 with
                      sessions := st1.sessions ++
                        [⟨st1.nextEid, name, some s, st1.ttl * 1000000⟩],
                      armed := st1.armed ++ [st1.nextEid],
                      nextEid := st1.nextEid + 1 }, true, ds, true⟩
    | some (pre, e, post) =>
      match eng with
      | none =>
        some ⟨{ st with sessions := pre ++ { e with sess := none } :: post }, false, [], false⟩
      | some s =>
        some ⟨{ st with sessions := pre ++ post ++ [{ e with sess := some s }] }, true, [], false⟩

/-- Translation of `lws_tls_session_expiry_cb`: the sul of entry `eid`
fired; under the vhost lock, destroy that entry. -/
def lws_tls_session_expiry_cb (st : VhState) (eid : Nat) : VhState :=
  __lws_tls_session_destroy st eid

/-- Translation of `lws_tls_session_vh_destroy`:
`lws_dll2_foreach_safe` over the vhost list, destroying every entry. -/
def lws_tls_session_vh_destroy (st : VhState) : VhState :=
  st.sessions.foldl (fun s e => __lws_tls_session_destroy s e.eid) st

/-- An externally triggered event against one vhost's cache: a reuse
attempt before a handshake, a commit after a handshake (with the outcomes
of malloc and of the engine extraction), a TTL sul firing, or vhost
teardown. -/
inductive SOp where
  | reuse (name : String)
  | commit (name : String) (allocOk : Bool) (eng : Option Nat)
  | expire (eid : Nat)
  | destroyAll
deriving DecidableEq

/-- One event step: the new state plus the identities of the entries
destroyed (blob released, node freed) during the step; `none` models
undefined behaviour.  An `expire` event has an effect only when that sul is
currently scheduled — the sul facility never fires a cancelled sul. -/
def stepOp (st : VhState) : SOp → Option (VhState × List Nat)
  | .reuse name => some ((lws_tls_reuse_session st name).vh, [])
  | .commit name allocOk eng =>
    match lws_tls_session_new_mbedtls st name allocOk eng with
    | none => none
    | some r => some (r.vh, r.destroyed)
  | .expire eid =>
    if eid ∈ st.armed then some (lws_tls_session_expiry_cb st eid, [eid])
    else some (st, [])
  | .destroyAll => some (lws_tls_session_vh_destroy st, st.sessions.map (fun e => e.eid))

/-- Run a sequence of events, accumulating the destruction log. -/
def runOps (st : VhState) : List SOp → Option (VhState × List Nat)
  | [] => some (st, [])
  | op :: t =>
    match stepOp st op with
    | none => none
    | some (st1, d1) =>
      match runOps st1 t with
      | none => none
      | some (st2, d2) => some (st2, d1 ++ d2)

/-- A vhost as configured at creation: given option bit, capacity and TTL,
with an empty session list and nothing scheduled. -/
def initVh (disable : Bool) (cmax ttl : Nat) : VhState :=
  ⟨disable, cmax, ttl, [], 0, []⟩

/-- Reachability invariant of one vhost's cache state together with the
cumulative destruction log: keys are unique, the count is bounded by the
capacity, node identities are unique and below the allocation counter, the
log is duplicate-free, below the allocation counter and disjoint from the
live list, and the armed suls are a duplicate-free subset of the live
list bounded by the allocation counter. -/
def CacheInv (st : VhState) (log : List Nat) : Prop :=
  (st.sessions.map (fun e => e.key)).Nodup ∧
  st.sessions.length ≤ st.cmax ∧
  (st.sessions.map (fun e => e.eid)).Nodup ∧
  (∀ e ∈ st.sessions, e.eid < st.nextEid) ∧
  log.Nodup ∧
  (∀ i ∈ log, i < st.nextEid) ∧
  (∀ i ∈ log, i ∉ st.sessions.map (fun e => e.eid)) ∧
  (∀ i ∈ st.armed, i ∈ st.sessions.map (fun e => e.eid)) ∧
  st.armed.Nodup ∧
  (∀ i ∈ st.armed, i < st.nextEid)

/-- Decimal digits of `n`, most significant first, computed with explicit
fuel (the kernel evaluates it by structural recursion). -/
def natCharsAux : Nat → Nat → List Char
  | 0, _ => []
  | fuel + 1, n =>
    if n = 0 then []
    else natCharsAux fuel (n / 10) ++ [Char.ofNat (48 + n % 10)]

/-- Decimal rendering of an unsigned integer, as printf `%u` writes it. -/
def natChars (n : Nat) : List Char :=
  if n = 0 then ['0'] else natCharsAux n n

/-- Decimal value of a digit string (left inverse of `natChars`). -/
def chVal (l : List Char) : Nat :=
  l.foldl (fun v c => v * 10 + (c.toNat - 48)) 0

/-- Modelled from the spec: `lws_snprintf` (declared outside this source
file) behaves as snprintf — with buffer length `len` it writes at most
`len - 1` characters of the formatted text plus a terminating NUL — and
returns the count of characters actually written. -/
def lwsSnprintf (content : List Char) (len : Nat) : List Char :=
  content.take (len - 1)

/-- Modelled from the spec: `lws_sa46_write_numeric_address` (declared
outside this source file) writes the textual numeric form of the peer
address — no reverse DNS — truncated snprintf-style to the given buffer
length (length 0 writes nothing). -/
def sa46WriteNumericAddress (addr : List Char) (len : Nat) : List Char :=
  addr.take (len - 1)

/-- Size of the stack name buffer used by both `lws_tls_reuse_session` and
`lws_tls_session_new_mbedtls`: `char buf[16 + 48 + 1 + 8 + 1]` = 74. -/
def SNLEN : Nat := 16 + 48 + 1 + 8 + 1

/-- Translation of `lws_tls_session_name_from_wsi`: write
`"<vhost-name>."` into the 74-byte buffer, then the peer's numeric address
into the remainder less 8 bytes (that length is computed in `size_t` and
wraps when fewer than 8 bytes remain), then `":<port>"` — `port` is
`wsi->c_port`, a uint16 — into at most 8 bytes at the end of the string. -/
def lws_tls_session_name_from_wsi (name addr : List Char) (port : Nat) : List Char :=
  let c1 := lwsSnprintf (name ++ ['.']) SNLEN
  let len2 := SNLEN - c1.length
  let alen := if 8 ≤ len2 then len2 - 8 else 2 ^ 64 - (8 - len2)
  let c2 := sa46WriteNumericAddress addr alen
  c1 ++ c2 ++ lwsSnprintf (':' :: natChars port) 8

/-- Shape of a textual IPv4 numeric address: no colon, exactly three dots
(a dotted quad). -/
abbrev isV4 (a : List Char) : Prop := ':' ∉ a ∧ a.count '.' = 3

/-- Shape of a textual IPv6 numeric address: contains a colon, and any dot
(an embedded IPv4 tail) appears only after the first colon. -/
abbrev isV6 (a : List Char) : Prop :=
  ':' ∈ a ∧ '.' ∉ a.takeWhile (fun c => c != ':')

/-- A textual numeric address literal, IPv4 or IPv6. -/
abbrev validAddr (a : List Char) : Prop := isV4 a ∨ isV6 a

/-- Inputs whose derived session name is not truncated by the fixed 74-byte
buffer (name plus address at most 64 bytes, a 16-bit port), with a
colon-free vhost name and a numeric address literal. -/
abbrev GoodKey (name addr : List Char) (port : Nat) : Prop :=
  name.length + addr.length ≤ 64 ∧ port < 65536 ∧ ':' ∉ name ∧ validAddr addr

theorem splitFirst_none (p : SEntry → Bool) :
    ∀ l : List SEntry, splitFirst p l = none ↔ ∀ x ∈ l, p x = false := by
  intro l
  induction l with
  | nil => simp [splitFirst]
  | cons a t ih =>
    cases hpa : p a with
    | true => simp [splitFirst, hpa]
    | false => simp [splitFirst, hpa, ih]

theorem splitFirst_some (p : SEntry → Bool) :
    ∀ (l pre : List SEntry) (e : SEntry) (post : List SEntry),
      splitFirst p l = some (pre, e, post) →
      l = pre ++ e :: post ∧ p e = true ∧ ∀ x ∈ pre, p x = false := by
  intro l
  induction l with
  | nil => intro pre e post h; simp [splitFirst] at h
  | cons a t ih =>
    intro pre e post h
    cases hpa : p a with
    | true =>
      rw [splitFirst, if_pos hpa] at h
      simp only [Option.some.injEq, Prod.mk.injEq] at h
      obtain ⟨h1, h2, h3⟩ := h
      subst h1; subst h2; subst h3
      exact ⟨rfl, hpa, by intro x hx; cases hx⟩
    | false =>
      rw [splitFirst, if_neg (by simp [hpa])] at h
      rw [Option.map_eq_some'] at h
      obtain ⟨⟨pre2, e2, post2⟩, hsp, hmk⟩ := h
      simp only [Prod.mk.injEq] at hmk
      obtain ⟨h1, h2, h3⟩ := hmk
      subst h1; subst h2; subst h3
      obtain ⟨hl, hpe, hpre⟩ := ih pre2 e2 post2 hsp
      subst hl
      refine ⟨rfl, hpe, ?_⟩
      intro x hx
      cases hx with
      | head => exact hpa
      | tail _ hx2 => exact hpre x hx2

theorem splitFirst_of_parts (p : SEntry → Bool) :
    ∀ (pre : List SEntry) (e : SEntry) (post : List SEntry),
      p e = true → (∀ x ∈ pre, p x = false) →
      splitFirst p (pre ++ e :: post) = some (pre, e, post) := by
  intro pre
  induction pre with
  | nil =>
    intro e post hpe _
    simp [splitFirst, hpe]
  | cons a t ih =>
    intro e post hpe hpre
    have hpa : p a = false := hpre a (List.mem_cons_self a t)
    rw [List.cons_append, splitFirst, if_neg (by simp [hpa])]
    rw [ih e post hpe (fun x hx => hpre x (List.mem_cons_of_mem a hx))]
    rfl

theorem lookup_none (l : List SEntry) (name : String) :
    __lws_tls_session_lookup_by_name l name = none ↔ ∀ x ∈ l, x.key ≠ name := by
  rw [__lws_tls_session_lookup_by_name, splitFirst_none]
  constructor
  · intro h x hx
    simpa using h x hx
  · intro h x hx
    simpa using h x hx

theorem lookup_parts (l pre : List SEntry) (e : SEntry) (post : List SEntry) (name : String)
    (hl : l = pre ++ e :: post) (he : e.key = name) (hpre : ∀ x ∈ pre, x.key ≠ name) :
    __lws_tls_session_lookup_by_name l name = some (pre, e, post) := by
  subst hl
  rw [__lws_tls_session_lookup_by_name]
  exact splitFirst_of_parts _ pre e post (by simp [he]) (fun x hx => by simp [hpre x hx])

theorem lookup_some (l : List SEntry) (name : String) (pre : List SEntry) (e : SEntry)
    (post : List SEntry)
    (h : __lws_tls_session_lookup_by_name l name = some (pre, e, post)) :
    l = pre ++ e :: post ∧ e.key = name ∧ ∀ x ∈ pre, x.key ≠ name := by
  obtain ⟨h1, h2, h3⟩ := splitFirst_some _ l pre e post h
  refine ⟨h1, by simpa using h2, fun x hx => by simpa using h3 x hx⟩

/-- C4: `lws_tls_reuse_session` realises the try_reuse contract: when the
cache is disabled for the owner it reports false immediately without taking
the vhost lock and without touching the store; on a miss it reports false
(lock taken, store untouched); on a hit it reports true, sets
`tls_session_reused`, hands the entry's stored session to
`mbedtls_ssl_set_session` while the entry keeps the blob (a borrow, not an
ownership transfer), and moves the entry to the tail of the list. -/
theorem c4_reuse_contract (st : VhState) (name : String) :
    (st.disable = true → lws_tls_reuse_session st name = ⟨st, false, false, none⟩) ∧
    (st.disable = false → (∀ x ∈ st.sessions, x.key ≠ name) →
      lws_tls_reuse_session st name = ⟨st, false, true, none⟩) ∧
    (∀ pre e post, st.disable = false → st.sessions = pre ++ e :: post →
      e.key = name → (∀ x ∈ pre, x.key ≠ name) →
      lws_tls_reuse_session st name =
        ⟨{ st with sessions := pre ++ post ++ [e] }, true, true, some e.sess⟩) := by
  refine ⟨?_, ?_, ?_⟩
  · intro h
    simp [lws_tls_reuse_session, h]
  · intro h hmiss
    have hl : __lws_tls_session_lookup_by_name st.sessions name = none :=
      (lookup_none _ _).mpr hmiss
    simp [lws_tls_reuse_session, h, hl]
  · intro pre e post h hsess hkey hpre
    have hl := lookup_parts st.sessions pre e post name hsess hkey hpre
    simp [lws_tls_reuse_session, h, hl]

/-- C4 witness: a vhost with one cached entry; reuse hits it, reports true,
installs the stored blob (the entry keeping it), and leaves the entry at
the tail. -/
theorem c4_reuse_contract_witness :
    lws_tls_reuse_session ⟨false, 2, 3600, [⟨0, "k", some 7, 5⟩], 1, [0]⟩ "k" =
      ⟨⟨false, 2, 3600, [⟨0, "k", some 7, 5⟩], 1, [0]⟩, true, true, some (some 7)⟩ :=
  (c4_reuse_contract ⟨false, 2, 3600, [⟨0, "k", some 7, 5⟩], 1, [0]⟩ "k").2.2
    [] ⟨0, "k", some 7, 5⟩ [] rfl rfl rfl (by intro x hx; cases hx)

/-- C7: on a commit that hits an existing entry, if the engine fails to
provide a session after the stored blob was discarded, the call returns
false having destroyed nothing and scheduled nothing: the entry stays in
the list at the same position (same prefix length), the list keeps the same
length and the same sequences of keys and node identities, and the armed
suls are untouched. -/
theorem c7_refresh_failure_keeps_store (st : VhState) (name : String) (allocOk : Bool)
    (pre : List SEntry) (e : SEntry) (post : List SEntry)
    (hd : st.disable = false) (hs : st.sessions = pre ++ e :: post)
    (hk : e.key = name) (hp : ∀ x ∈ pre, x.key ≠ name) :
    lws_tls_session_new_mbedtls st name allocOk none =
      some ⟨{ st with sessions := pre ++ { e with sess := none } :: post },
            false, [], false⟩ ∧
    (pre ++ { e with sess := none } :: post).length = st.sessions.length ∧
    (pre ++ { e with sess := none } :: post).map (fun y => y.key)
      = st.sessions.map (fun y => y.key) ∧
    (pre ++ { e with sess := none } :: post).map (fun y => y.eid)
      = st.sessions.map (fun y => y.eid) ∧
    ({ st with sessions := pre ++ { e with sess := none } :: post } : VhState).armed
      = st.armed := by
  have hl := lookup_parts st.sessions pre e post name hs hk hp
  refine ⟨by simp [lws_tls_session_new_mbedtls, hd, hl], by simp [hs], ?_, ?_, rfl⟩
  · simp [hs]
  · simp [hs]

/-- C7 witness: a single-entry store; a refresh whose engine extraction
fails returns false and leaves the entry in place with its blob released. -/
theorem c7_refresh_failure_keeps_store_witness :
    lws_tls_session_new_mbedtls ⟨false, 2, 3600, [⟨0, "k", some 7, 5⟩], 1, [0]⟩ "k" true none =
      some ⟨⟨false, 2, 3600, [⟨0, "k", none, 5⟩], 1, [0]⟩, false, [], false⟩ :=
  (c7_refresh_failure_keeps_store ⟨false, 2, 3600, [⟨0, "k", some 7, 5⟩], 1, [0]⟩ "k" true
    [] ⟨0, "k", some 7, 5⟩ [] rfl rfl rfl (by intro x hx; cases hx)).1

/-- C9: a successful refresh (commit hit) never calls `lws_sul_schedule`:
the result records no sul arming, the armed set is unchanged, and the entry
— now at the tail with the new blob — keeps its node identity and the sul
delay recorded when it was first stored, so its TTL expiry stays on the
original schedule. -/
theorem c9_refresh_keeps_ttl (st : VhState) (name : String) (allocOk : Bool) (x : Nat)
    (pre : List SEntry) (e : SEntry) (post : List SEntry)
    (hd : st.disable = false) (hs : st.sessions = pre ++ e :: post)
    (hk : e.key = name) (hp : ∀ y ∈ pre, y.key ≠ name) :
    lws_tls_session_new_mbedtls st name allocOk (some x) =
      some ⟨{ st with sessions := pre ++ post ++ [{ e with sess := some x }] },
            true, [], false⟩ ∧
    ({ e with sess := some x }).eid = e.eid ∧
    ({ e with sess := some x }).sulDelayUs = e.sulDelayUs ∧
    ({ st with sessions := pre ++ post ++ [{ e with sess := some x }] } : VhState).armed
      = st.armed := by
  have hl := lookup_parts st.sessions pre e post name hs hk hp
  exact ⟨by simp [lws_tls_session_new_mbedtls, hd, hl], rfl, rfl, rfl⟩

/-- C9 witness: refreshing the one cached entry stores the new blob without
touching the armed sul or the recorded delay. -/
theorem c9_refresh_keeps_ttl_witness :
    lws_tls_session_new_mbedtls ⟨false, 2, 3600, [⟨0, "k", some 7, 5⟩], 1, [0]⟩ "k" true (some 9) =
      some ⟨⟨false, 2, 3600, [⟨0, "k", some 9, 5⟩], 1, [0]⟩, true, [], false⟩ :=
  (c9_refresh_keeps_ttl ⟨false, 2, 3600, [⟨0, "k", some 7, 5⟩], 1, [0]⟩ "k" true 9
    [] ⟨0, "k", some 7, 5⟩ [] rfl rfl rfl (by intro y hy; cases hy)).1

/-- C10: in the miss path at capacity, the head is destroyed before the
allocation and before the engine is asked for the current session; if the
allocation or the extraction then fails, the call returns false yet the
store has already lost its head — the head's sul is cancelled, the head is
gone from the list, and nothing was stored. -/
theorem c10_failed_commit_sheds_head (st : VhState) (name : String) (allocOk : Bool)
    (eng : Option Nat) (h : SEntry) (t : List SEntry)
    (hd : st.disable = false) (hs : st.sessions = h :: t)
    (hmiss : ∀ y ∈ st.sessions, y.key ≠ name)
    (hcap : st.sessions.length = st.cmax)
    (hnd : (st.sessions.map (fun y => y.eid)).Nodup)
    (hfail : allocOk = false ∨ eng = none) :
    lws_tls_session_new_mbedtls st name allocOk eng =
      some ⟨{ st with sessions := t, armed := st.armed.erase h.eid },
            false, [h.eid], false⟩ ∧
    t.length + 1 = st.sessions.length := by
  have hl : __lws_tls_session_lookup_by_name st.sessions name = none :=
    (lookup_none _ _).mpr hmiss
  have hfilter : st.sessions.filter (fun e => e.eid != h.eid) = t := by
    rw [hs]
    rw [hs] at hnd
    simp only [List.map_cons, List.nodup_cons] at hnd
    rw [List.filter_cons]
    simp only [bne_self_eq_false, if_neg]
    · exact List.filter_eq_self.mpr (fun a ha => by
        simp only [bne_iff_ne, ne_eq]
        intro hcontra
        exact hnd.1 (hcontra ▸ List.mem_map_of_mem (fun y => y.eid) ha))
  refine ⟨?_, by simp [hs]⟩
  obtain ⟨dis, cm, tt, sess, ne, ar⟩ := st
  dsimp only at hd hs hcap hl hfilter ⊢
  subst hd hs hcap
  rcases hfail with hf | hf
  · subst hf
    simp [lws_tls_session_new_mbedtls, hl, __lws_tls_session_destroy, hfilter]
  · subst hf
    cases allocOk <;>
      simp [lws_tls_session_new_mbedtls, hl, __lws_tls_session_destroy, hfilter]

/-- C10 witness: a full one-entry store; a commit of a fresh key whose
allocation fails still evicts and destroys the head, returning false. -/
theorem c10_failed_commit_sheds_head_witness :
    lws_tls_session_new_mbedtls ⟨false, 1, 3600, [⟨0, "k", some 7, 5⟩], 1, [0]⟩ "f" false none =
      some ⟨⟨false, 1, 3600, [], 1, []⟩, false, [0], false⟩ :=
  (c10_failed_commit_sheds_head ⟨false, 1, 3600, [⟨0, "k", some 7, 5⟩], 1, [0]⟩ "f" false none
    ⟨0, "k", some 7, 5⟩ [] rfl rfl (by intro y hy; cases hy with
      | head => decide
      | tail _ hy2 => cases hy2) rfl (by decide) (Or.inl rfl)).1

/-- C2 (failing input): with the disable option clear and a configured
capacity of 0, a commit on the empty store takes the eviction branch
(count 0 equals max 0) and destroys `lws_container_of` of a NULL head — a
null-pointer dereference, modelled as undefined (`none`) — instead of
returning false and leaving the store untouched. -/
theorem c2_capacity_zero_undefined :
    lws_tls_session_new_mbedtls (initVh false 0 3600) "host" true (some 0) = none := by
  rfl

theorem perm_move_to_tail (pre post : List SEntry) (e : SEntry) :
    List.Perm (pre ++ e :: post) (pre ++ post ++ [e]) := by
  rw [List.append_assoc]
  exact List.Perm.append_left pre (List.perm_append_singleton e post).symm

theorem inv_maps_congr (st : VhState) (l2 : List SEntry) (log : List Nat)
    (hinv : CacheInv st log)
    (hk : List.Perm (l2.map (fun e => e.key)) (st.sessions.map (fun e => e.key)))
    (hi : List.Perm (l2.map (fun e => e.eid)) (st.sessions.map (fun e => e.eid))) :
    CacheInv { st with sessions := l2 } log := by
  obtain ⟨i1, i2, i3, i4, i5, i6, i7, i8, i9, i10⟩ := hinv
  refine ⟨hk.symm.nodup i1, ?_, hi.symm.nodup i3, ?_, i5, i6, ?_, ?_, i9, i10⟩
  · have : l2.length = st.sessions.length := by
      have := hk.length_eq
      simpa using this
    simpa [this] using i2
  · intro e he
    have : e.eid ∈ st.sessions.map (fun x => x.eid) :=
      hi.mem_iff.mp (List.mem_map_of_mem (fun x => x.eid) he)
    obtain ⟨y, hy, hye⟩ := List.mem_map.mp this
    simpa [← hye] using i4 y hy
  · intro i hi2
    have := i7 i hi2
    simpa [hi.mem_iff] using this
  · intro i hi2
    have := i8 i hi2
    simpa [hi.mem_iff] using this

theorem inv_destroy (st : VhState) (log : List Nat) (eid : Nat)
    (hinv : CacheInv st log)
    (hlive : eid ∈ st.sessions.map (fun e => e.eid)) :
    CacheInv (__lws_tls_session_destroy st eid) (log ++ [eid]) := by
  obtain ⟨i1, i2, i3, i4, i5, i6, i7, i8, i9, i10⟩ := hinv
  have hlogeid : eid ∉ log := fun hc => i7 eid hc hlive
  have heidlt : eid < st.nextEid := by
    obtain ⟨y, hy, hye⟩ := List.mem_map.mp hlive
    simpa [← hye] using i4 y hy
  have hsub : List.Sublist (st.sessions.filter (fun e => e.eid != eid)) st.sessions :=
    List.filter_sublist st.sessions
  refine ⟨i1.sublist (hsub.map (fun e => e.key)), ?_, i3.sublist (hsub.map (fun e => e.eid)),
    ?_, ?_, ?_, ?_, ?_, i9.erase eid, ?_⟩
  · exact le_trans hsub.length_le i2
  · intro e he
    exact i4 e (List.mem_of_mem_filter he)
  · rw [List.nodup_append]
    exact ⟨i5, List.nodup_singleton eid, by
      intro a ha hb
      rw [List.mem_singleton] at hb
      exact hlogeid (hb ▸ ha)⟩
  · intro i hi2
    rcases List.mem_append.mp hi2 with hi3 | hi3
    · exact i6 i hi3
    · rw [List.mem_singleton] at hi3
      exact hi3 ▸ heidlt
  · intro i hi2 hc
    obtain ⟨y, hy, hye⟩ := List.mem_map.mp hc
    have hy2 := List.mem_of_mem_filter hy
    have hyne : y.eid ≠ eid := by
      have := List.of_mem_filter hy
      simpa using this
    rcases List.mem_append.mp hi2 with hi3 | hi3
    · exact i7 i hi3 (hye ▸ List.mem_map_of_mem (fun e => e.eid) hy2)
    · rw [List.mem_singleton] at hi3
      exact hyne (hye.trans hi3)
  · intro i hi2
    have hmem := List.mem_of_mem_erase hi2
    have hine : i ≠ eid := (i9.mem_erase_iff.mp hi2).1
    have := i8 i hmem
    obtain ⟨y, hy, hye⟩ := List.mem_map.mp this
    refine List.mem_map.mpr ⟨y, List.mem_filter.mpr ⟨hy, ?_⟩, hye⟩
    simp [hye, hine]
  · intro i hi2
    exact i10 i (List.mem_of_mem_erase hi2)

theorem inv_insert (st : VhState) (log : List Nat) (name : String) (s : Nat)
    (hinv : CacheInv st log)
    (hfresh : ∀ x ∈ st.sessions, x.key ≠ name)
    (hroom : st.sessions.length < st.cmax) :
    CacheInv { st with
      sessions := st.sessions ++ [⟨st.nextEid, name, some s, st.ttl * 1000000⟩],
      armed := st.armed ++ [st.nextEid],
      nextEid := st.nextEid + 1 } log := by
  obtain ⟨i1, i2, i3, i4, i5, i6, i7, i8, i9, i10⟩ := hinv
  refine ⟨?_, ?_, ?_, ?_, i5, ?_, ?_, ?_, ?_, ?_⟩
  · rw [List.map_append, List.nodup_append]
    refine ⟨i1, by simp, ?_⟩
    intro a ha hb
    simp only [List.map_cons, List.map_nil, List.mem_singleton] at hb
    obtain ⟨y, hy, hye⟩ := List.mem_map.mp ha
    exact hfresh y hy (hye.trans hb)
  · simpa using hroom
  · rw [List.map_append, List.nodup_append]
    refine ⟨i3, by simp, ?_⟩
    intro a ha hb
    simp only [List.map_cons, List.map_nil, List.mem_singleton] at hb
    obtain ⟨y, hy, hye⟩ := List.mem_map.mp ha
    exact absurd (hye.trans hb ▸ i4 y hy) (lt_irrefl st.nextEid)
  · intro e he
    rcases List.mem_append.mp he with he2 | he2
    · exact Nat.lt_succ_of_lt (i4 e he2)
    · rw [List.mem_singleton] at he2
      subst he2
      exact Nat.lt_succ_self _
  · intro i hi2
    exact Nat.lt_succ_of_lt (i6 i hi2)
  · intro i hi2
    rw [List.map_append, List.mem_append]
    rintro (hc | hc)
    · exact i7 i hi2 hc
    · simp only [List.map_cons, List.map_nil, List.mem_singleton] at hc
      exact absurd (hc ▸ i6 i hi2) (lt_irrefl st.nextEid)
  · intro i hi2
    rw [List.map_append]
    rcases List.mem_append.mp hi2 with hi3 | hi3
    · exact List.mem_append.mpr (Or.inl (i8 i hi3))
    · rw [List.mem_singleton] at hi3
      subst hi3
      simp
  · rw [List.nodup_append]
    refine ⟨i9, by simp, ?_⟩
    intro a ha hb
    rw [List.mem_singleton] at hb
    exact absurd (hb ▸ i10 a ha) (lt_irrefl st.nextEid)
  · intro i hi2
    rcases List.mem_append.mp hi2 with hi3 | hi3
    · exact Nat.lt_succ_of_lt (i10 i hi3)
    · rw [List.mem_singleton] at hi3
      subst hi3
      exact Nat.lt_succ_self _

theorem inv_destroy_fold (l : List SEntry) (st : VhState) (log : List Nat)
    (hinv : CacheInv st log)
    (hnd : (l.map (fun e => e.eid)).Nodup)
    (hsub : ∀ e ∈ l, e.eid ∈ st.sessions.map (fun x => x.eid)) :
    CacheInv (l.foldl (fun s e => __lws_tls_session_destroy s e.eid) st)
      (log ++ l.map (fun e => e.eid)) := by
  induction l generalizing st log with
  | nil => simpa using hinv
  | cons e t ih =>
    rw [List.foldl_cons, List.map_cons]
    have h1 : CacheInv (__lws_tls_session_destroy st e.eid) (log ++ [e.eid]) :=
      inv_destroy st log e.eid hinv (hsub e (List.mem_cons_self e t))
    simp only [List.map_cons, List.nodup_cons] at hnd
    have h2 : ∀ x ∈ t, x.eid ∈
        (__lws_tls_session_destroy st e.eid).sessions.map (fun y => y.eid) := by
      intro x hx
      have hxe : x.eid ≠ e.eid := fun hc =>
        hnd.1 (hc ▸ List.mem_map_of_mem (fun y => y.eid) hx)
      obtain ⟨y, hy, hye⟩ := List.mem_map.mp (hsub x (List.mem_cons_of_mem e hx))
      refine List.mem_map.mpr ⟨y, ?_, hye⟩
      rw [__lws_tls_session_destroy]
      exact List.mem_filter.mpr ⟨hy, by simp [hye, hxe]⟩
    have h3 := ih (__lws_tls_session_destroy st e.eid) (log ++ [e.eid]) h1 hnd.2 h2
    simpa [List.append_assoc] using h3

theorem map_move_to_tail {α : Type} (f : SEntry → α) (pre post : List SEntry) (e e2 : SEntry)
    (hf : f e2 = f e) :
    List.Perm ((pre ++ post ++ [e2]).map f) ((pre ++ e :: post).map f) := by
  have h1 : (pre ++ post ++ [e2]).map f = (pre ++ post ++ [e]).map f := by
    simp [hf]
  rw [h1]
  exact ((perm_move_to_tail pre post e).map f).symm

theorem commit_inv (st : VhState) (log : List Nat) (name : String) (allocOk : Bool)
    (eng : Option Nat) (r : CommitResult) (hinv : CacheInv st log)
    (h : lws_tls_session_new_mbedtls st name allocOk eng = some r) :
    CacheInv r.vh (log ++ r.destroyed) := by
  by_cases hd : st.disable = true
  · rw [lws_tls_session_new_mbedtls, if_pos hd] at h
    obtain rfl := Option.some.inj h
    simpa using hinv
  · rw [lws_tls_session_new_mbedtls, if_neg hd] at h
    cases hl : __lws_tls_session_lookup_by_name st.sessions name with
    | some trip =>
      obtain ⟨pre, e, post⟩ := trip
      rw [hl] at h
      obtain ⟨hs, hk, hp⟩ := lookup_some st.sessions name pre e post hl
      cases eng with
      | none =>
        dsimp only at h
        obtain rfl := Option.some.inj h
        dsimp only
        rw [List.append_nil]
        apply inv_maps_congr st _ log hinv
        · rw [hs]
          have : (pre ++ { e with sess := none } :: post).map (fun x => x.key) =
              (pre ++ e :: post).map (fun x => x.key) := by simp
          rw [this]
        · rw [hs]
          have : (pre ++ { e with sess := none } :: post).map (fun x => x.eid) =
              (pre ++ e :: post).map (fun x => x.eid) := by simp
          rw [this]
      | some s =>
        dsimp only at h
        obtain rfl := Option.some.inj h
        dsimp only
        rw [List.append_nil]
        apply inv_maps_congr st _ log hinv
        · rw [hs]
          exact map_move_to_tail (fun x => x.key) pre post e _ rfl
        · rw [hs]
          exact map_move_to_tail (fun x => x.eid) pre post e _ rfl
    | none =>
      rw [hl] at h
      have hmiss : ∀ x ∈ st.sessions, x.key ≠ name := (lookup_none _ _).mp hl
      dsimp only at h
      by_cases hcap : st.sessions.length = st.cmax
      · rw [if_pos hcap] at h
        cases hsess : st.sessions with
        | nil =>
          rw [hsess] at h
          cases h
        | cons e0 tl =>
          rw [hsess] at h
          dsimp only at h
          have hlive : e0.eid ∈ st.sessions.map (fun x => x.eid) := by
            rw [hsess]
            exact List.mem_map_of_mem (fun x => x.eid) (List.mem_cons_self e0 tl)
          have hinv1 : CacheInv (__lws_tls_session_destroy st e0.eid) (log ++ [e0.eid]) :=
            inv_destroy st log e0.eid hinv hlive
          by_cases ha : allocOk = false
          · rw [if_pos ha] at h
            obtain rfl := Option.some.inj h
            exact hinv1
          · rw [if_neg ha] at h
            cases eng with
            | none =>
              dsimp only at h
              obtain rfl := Option.some.inj h
              exact hinv1
            | some s =>
              dsimp only at h
              obtain rfl := Option.some.inj h
              dsimp only
              apply inv_insert _ _ name s hinv1
              · intro x hx
                exact hmiss x (List.mem_of_mem_filter hx)
              · have he0 : e0 ∈ st.sessions := by
                  rw [hsess]; exact List.mem_cons_self e0 tl
                have : ((__lws_tls_session_destroy st e0.eid).sessions).length <
                    st.sessions.length := by
                  rw [__lws_tls_session_destroy]
                  exact List.length_filter_lt_length_iff_exists.mpr
                    ⟨e0, he0, by simp⟩
                calc ((__lws_tls_session_destroy st e0.eid).sessions).length
                    < st.sessions.length := this
                  _ = st.cmax := hcap
      · rw [if_neg hcap] at h
        dsimp only at h
        have hroom : st.sessions.length < st.cmax :=
          lt_of_le_of_ne hinv.2.1 hcap
        by_cases ha : allocOk = false
        · rw [if_pos ha] at h
          obtain rfl := Option.some.inj h
          simpa using hinv
        · rw [if_neg ha] at h
          cases eng with
          | none =>
            dsimp only at h
            obtain rfl := Option.some.inj h
            simpa using hinv
          | some s =>
            dsimp only at h
            obtain rfl := Option.some.inj h
            dsimp only
            rw [List.append_nil]
            exact inv_insert st log name s hinv hmiss hroom

theorem reuse_inv (st : VhState) (log : List Nat) (name : String)
    (hinv : CacheInv st log) :
    CacheInv (lws_tls_reuse_session st name).vh log := by
  by_cases hd : st.disable = true
  · rw [lws_tls_reuse_session, if_pos hd]
    exact hinv
  · rw [lws_tls_reuse_session, if_neg hd]
    cases hl : __lws_tls_session_lookup_by_name st.sessions name with
    | none => exact hinv
    | some trip =>
      obtain ⟨pre, e, post⟩ := trip
      obtain ⟨hs, hk, hp⟩ := lookup_some st.sessions name pre e post hl
      dsimp only
      apply inv_maps_congr st _ log hinv
      · rw [hs]; exact map_move_to_tail (fun x => x.key) pre post e e rfl
      · rw [hs]; exact map_move_to_tail (fun x => x.eid) pre post e e rfl

theorem stepOp_inv (st : VhState) (log : List Nat) (op : SOp) (st2 : VhState) (d : List Nat)
    (hinv : CacheInv st log) (hstep : stepOp st op = some (st2, d)) :
    CacheInv st2 (log ++ d) := by
  cases op with
  | reuse name =>
    rw [stepOp] at hstep
    obtain ⟨h1, h2⟩ := Prod.mk.injEq .. ▸ Option.some.inj hstep
    subst h1; subst h2
    rw [List.append_nil]
    exact reuse_inv st log name hinv
  | commit name allocOk eng =>
    rw [stepOp] at hstep
    cases hc : lws_tls_session_new_mbedtls st name allocOk eng with
    | none => rw [hc] at hstep; cases hstep
    | some r =>
      rw [hc] at hstep
      dsimp only at hstep
      obtain ⟨h1, h2⟩ := Prod.mk.injEq .. ▸ Option.some.inj hstep
      subst h1; subst h2
      exact commit_inv st log name allocOk eng r hinv hc
  | expire eid =>
    rw [stepOp] at hstep
    by_cases harm : eid ∈ st.armed
    · rw [if_pos harm] at hstep
      obtain ⟨h1, h2⟩ := Prod.mk.injEq .. ▸ Option.some.inj hstep
      subst h1; subst h2
      have hlive : eid ∈ st.sessions.map (fun e => e.eid) := hinv.2.2.2.2.2.2.2.1 eid harm
      exact inv_destroy st log eid hinv hlive
    · rw [if_neg harm] at hstep
      obtain ⟨h1, h2⟩ := Prod.mk.injEq .. ▸ Option.some.inj hstep
      subst h1; subst h2
      rw [List.append_nil]
      exact hinv
  | destroyAll =>
    rw [stepOp] at hstep
    obtain ⟨h1, h2⟩ := Prod.mk.injEq .. ▸ Option.some.inj hstep
    subst h1; subst h2
    exact inv_destroy_fold st.sessions st log hinv hinv.2.2.1
      (fun e he => List.mem_map_of_mem (fun x => x.eid) he)

theorem runOps_inv (ops : List SOp) : ∀ (st : VhState) (log : List Nat)
    (st2 : VhState) (d : List Nat), CacheInv st log →
    runOps st ops = some (st2, d) → CacheInv st2 (log ++ d) := by
  induction ops with
  | nil =>
    intro st log st2 d hinv hrun
    rw [runOps] at hrun
    obtain ⟨h1, h2⟩ := Prod.mk.injEq .. ▸ Option.some.inj hrun
    subst h1; subst h2
    rw [List.append_nil]
    exact hinv
  | cons op t ih =>
    intro st log st2 d hinv hrun
    rw [runOps] at hrun
    cases hstep : stepOp st op with
    | none => rw [hstep] at hrun; cases hrun
    | some p =>
      obtain ⟨st1, d1⟩ := p
      rw [hstep] at hrun
      dsimp only at hrun
      cases hrest : runOps st1 t with
      | none => rw [hrest] at hrun; cases hrun
      | some q =>
        obtain ⟨st3, d2⟩ := q
        rw [hrest] at hrun
        dsimp only at hrun
        obtain ⟨h1, h2⟩ := Prod.mk.injEq .. ▸ Option.some.inj hrun
        subst h1; subst h2
        have hinv1 := stepOp_inv st log op st1 d1 hinv hstep
        have := ih st1 (log ++ d1) st3 d2 hinv1 hrest
        rwa [List.append_assoc] at this

theorem init_inv (disable : Bool) (cmax ttl : Nat) :
    CacheInv (initVh disable cmax ttl) [] := by
  refine ⟨?_, ?_, ?_, ?_, ?_, ?_, ?_, ?_, ?_, ?_⟩ <;> simp [initVh]

theorem foldl_destroy_cmax (l : List SEntry) : ∀ st : VhState,
    (l.foldl (fun s e => __lws_tls_session_destroy s e.eid) st).cmax = st.cmax := by
  induction l with
  | nil => intro st; rfl
  | cons e t ih => intro st; rw [List.foldl_cons]; exact (ih _).trans rfl

theorem commit_cmax (st : VhState) (name : String) (allocOk : Bool) (eng : Option Nat)
    (r : CommitResult) (h : lws_tls_session_new_mbedtls st name allocOk eng = some r) :
    r.vh.cmax = st.cmax := by
  by_cases hd : st.disable = true
  · rw [lws_tls_session_new_mbedtls, if_pos hd] at h
    obtain rfl := Option.some.inj h; rfl
  · rw [lws_tls_session_new_mbedtls, if_neg hd] at h
    cases hl : __lws_tls_session_lookup_by_name st.sessions name with
    | some trip =>
      obtain ⟨pre, e, post⟩ := trip
      rw [hl] at h
      cases eng with
      | none => dsimp only at h; obtain rfl := Option.some.inj h; rfl
      | some s => dsimp only at h; obtain rfl := Option.some.inj h; rfl
    | none =>
      rw [hl] at h
      dsimp only at h
      by_cases hcap : st.sessions.length = st.cmax
      · rw [if_pos hcap] at h
        cases hsess : st.sessions with
        | nil => rw [hsess] at h; cases h
        | cons e0 tl =>
          rw [hsess] at h
          dsimp only at h
          by_cases ha : allocOk = false
          · rw [if_pos ha] at h; obtain rfl := Option.some.inj h; rfl
          · rw [if_neg ha] at h
            cases eng with
            | none => dsimp only at h; obtain rfl := Option.some.inj h; rfl
            | some s => dsimp only at h; obtain rfl := Option.some.inj h; rfl
      · rw [if_neg hcap] at h
        dsimp only at h
        by_cases ha : allocOk = false
        · rw [if_pos ha] at h; obtain rfl := Option.some.inj h; rfl
        · rw [if_neg ha] at h
          cases eng with
          | none => dsimp only at h; obtain rfl := Option.some.inj h; rfl
          | some s => dsimp only at h; obtain rfl := Option.some.inj h; rfl

theorem stepOp_cmax (st : VhState) (op : SOp) (st2 : VhState) (d : List Nat)
    (hstep : stepOp st op = some (st2, d)) : st2.cmax = st.cmax := by
  cases op with
  | reuse name =>
    rw [stepOp] at hstep
    obtain ⟨h1, h2⟩ := Prod.mk.injEq .. ▸ Option.some.inj hstep
    subst h1
    by_cases hd : st.disable = true
    · rw [lws_tls_reuse_session, if_pos hd]
    · rw [lws_tls_reuse_session, if_neg hd]
      cases hl : __lws_tls_session_lookup_by_name st.sessions name with
      | none => rfl
      | some trip => obtain ⟨pre, e, post⟩ := trip; rfl
  | commit name allocOk eng =>
    rw [stepOp] at hstep
    cases hc : lws_tls_session_new_mbedtls st name allocOk eng with
    | none => rw [hc] at hstep; cases hstep
    | some r =>
      rw [hc] at hstep
      dsimp only at hstep
      obtain ⟨h1, h2⟩ := Prod.mk.injEq .. ▸ Option.some.inj hstep
      subst h1
      exact commit_cmax st name allocOk eng r hc
  | expire eid =>
    rw [stepOp] at hstep
    by_cases harm : eid ∈ st.armed
    · rw [if_pos harm] at hstep
      obtain ⟨h1, h2⟩ := Prod.mk.injEq .. ▸ Option.some.inj hstep
      subst h1; rfl
    · rw [if_neg harm] at hstep
      obtain ⟨h1, h2⟩ := Prod.mk.injEq .. ▸ Option.some.inj hstep
      subst h1; rfl
  | destroyAll =>
    rw [stepOp] at hstep
    obtain ⟨h1, h2⟩ := Prod.mk.injEq .. ▸ Option.some.inj hstep
    subst h1
    exact foldl_destroy_cmax st.sessions st

theorem runOps_cmax (ops : List SOp) : ∀ (st st2 : VhState) (d : List Nat),
    runOps st ops = some (st2, d) → st2.cmax = st.cmax := by
  induction ops with
  | nil =>
    intro st st2 d hrun
    rw [runOps] at hrun
    obtain ⟨h1, h2⟩ := Prod.mk.injEq .. ▸ Option.some.inj hrun
    subst h1; rfl
  | cons op t ih =>
    intro st st2 d hrun
    rw [runOps] at hrun
    cases hstep : stepOp st op with
    | none => rw [hstep] at hrun; cases hrun
    | some p =>
      obtain ⟨st1, d1⟩ := p
      rw [hstep] at hrun
      dsimp only at hrun
      cases hrest : runOps st1 t with
      | none => rw [hrest] at hrun; cases hrun
      | some q =>
        obtain ⟨st3, d2⟩ := q
        rw [hrest] at hrun
        dsimp only at hrun
        obtain ⟨h1, h2⟩ := Prod.mk.injEq .. ▸ Option.some.inj hrun
        subst h1
        exact (ih st1 st3 d2 hrest).trans (stepOp_cmax st op st1 d1 hstep)

theorem commit_destroyed (st : VhState) (name : String) (allocOk : Bool) (eng : Option Nat)
    (r : CommitResult) (h : lws_tls_session_new_mbedtls st name allocOk eng = some r) :
    r.destroyed = [] ∨ ∃ h0 t0, st.sessions = h0 :: t0 ∧ r.destroyed = [h0.eid] := by
  by_cases hd : st.disable = true
  · rw [lws_tls_session_new_mbedtls, if_pos hd] at h
    obtain rfl := Option.some.inj h
    exact Or.inl rfl
  · rw [lws_tls_session_new_mbedtls, if_neg hd] at h
    cases hl : __lws_tls_session_lookup_by_name st.sessions name with
    | some trip =>
      obtain ⟨pre, e, post⟩ := trip
      rw [hl] at h
      cases eng with
      | none => dsimp only at h; obtain rfl := Option.some.inj h; exact Or.inl rfl
      | some s => dsimp only at h; obtain rfl := Option.some.inj h; exact Or.inl rfl
    | none =>
      rw [hl] at h
      dsimp only at h
      by_cases hcap : st.sessions.length = st.cmax
      · rw [if_pos hcap] at h
        cases hsess : st.sessions with
        | nil => rw [hsess] at h; cases h
        | cons e0 tl =>
          rw [hsess] at h
          dsimp only at h
          refine Or.inr ⟨e0, tl, rfl, ?_⟩
          by_cases ha : allocOk = false
          · rw [if_pos ha] at h; obtain rfl := Option.some.inj h; rfl
          · rw [if_neg ha] at h
            cases eng with
            | none => dsimp only at h; obtain rfl := Option.some.inj h; rfl
            | some s => dsimp only at h; obtain rfl := Option.some.inj h; rfl
      · rw [if_neg hcap] at h
        dsimp only at h
        by_cases ha : allocOk = false
        · rw [if_pos ha] at h; obtain rfl := Option.some.inj h; exact Or.inl rfl
        · rw [if_neg ha] at h
          cases eng with
          | none => dsimp only at h; obtain rfl := Option.some.inj h; exact Or.inl rfl
          | some s => dsimp only at h; obtain rfl := Option.some.inj h; exact Or.inl rfl

theorem commit_evict_insert (st : VhState) (name : String) (x : Nat)
    (h0 : SEntry) (t0 : List SEntry)
    (hd : st.disable = false) (hs : st.sessions = h0 :: t0)
    (hmiss : ∀ y ∈ st.sessions, y.key ≠ name)
    (hcap : st.sessions.length = st.cmax)
    (hnd : (st.sessions.map (fun y => y.eid)).Nodup) :
    lws_tls_session_new_mbedtls st name true (some x) =
      some ⟨{ st with
                sessions := t0 ++ [⟨st.nextEid, name, some x, st.ttl * 1000000⟩],
                armed := st.armed.erase h0.eid ++ [st.nextEid],
                nextEid := st.nextEid + 1 }, true, [h0.eid], true⟩ := by
  have hl : __lws_tls_session_lookup_by_name st.sessions name = none :=
    (lookup_none _ _).mpr hmiss
  have hfilter : st.sessions.filter (fun e => e.eid != h0.eid) = t0 := by
    rw [hs]
    rw [hs] at hnd
    simp only [List.map_cons, List.nodup_cons] at hnd
    rw [List.filter_cons]
    simp only [bne_self_eq_false, if_neg]
    · exact List.filter_eq_self.mpr (fun a ha => by
        simp only [bne_iff_ne, ne_eq]
        intro hcontra
        exact hnd.1 (hcontra ▸ List.mem_map_of_mem (fun y => y.eid) ha))
  obtain ⟨dis, cm, tt, sess, ne, ar⟩ := st
  dsimp only at hd hs hcap hl hfilter ⊢
  subst hd hs hcap
  simp [lws_tls_session_new_mbedtls, hl, __lws_tls_session_destroy, hfilter]

/-- C1: over any event sequence started from a fresh vhost, after each step
the store count never exceeds the configured capacity; and whenever a
commit destroys an entry to make room, that entry is exactly the current
head of the list (the LRU end) — never any other entry. -/
theorem c1_capacity_and_head_eviction (dis : Bool) (c t : Nat) (pre : List SOp)
    (st : VhState) (log : List Nat)
    (hrun : runOps (initVh dis c t) pre = some (st, log)) :
    st.sessions.length ≤ c ∧
    (∀ (name : String) (aOk : Bool) (eng : Option Nat) (r : CommitResult),
      lws_tls_session_new_mbedtls st name aOk eng = some r →
      r.destroyed = [] ∨ ∃ h0 t0, st.sessions = h0 :: t0 ∧ r.destroyed = [h0.eid]) := by
  have hinv := runOps_inv pre (initVh dis c t) [] st log (init_inv dis c t) hrun
  have hcm := runOps_cmax pre (initVh dis c t) st log hrun
  refine ⟨?_, ?_⟩
  · have h2 := hinv.2.1
    rw [hcm] at h2
    exact h2
  · intro name aOk eng r h
    exact commit_destroyed st name aOk eng r h

/-- C1 witness: one commit on an empty capacity-2 vhost leaves a store of
size 1 within capacity. -/
theorem c1_capacity_and_head_eviction_witness :
    (⟨false, 2, 3600, [⟨0, "a", some 1, 3600000000⟩], 1, [0]⟩ : VhState).sessions.length ≤ 2 :=
  (c1_capacity_and_head_eviction false 2 3600 [SOp.commit "a" true (some 1)]
    ⟨false, 2, 3600, [⟨0, "a", some 1, 3600000000⟩], 1, [0]⟩ [] (by decide)).1

/-- C6: after any sequence of reuse, commit, expiry and teardown events
started from a fresh vhost, the store never holds two entries with the
same key. -/
theorem c6_key_uniqueness (dis : Bool) (c t : Nat) (ops : List SOp)
    (st : VhState) (log : List Nat)
    (hrun : runOps (initVh dis c t) ops = some (st, log)) :
    (st.sessions.map (fun e => e.key)).Nodup :=
  (runOps_inv ops (initVh dis c t) [] st log (init_inv dis c t) hrun).1

/-- C6 witness: two commits, a reuse hit and a refresh leave the two
distinct keys unique in the store. -/
theorem c6_key_uniqueness_witness :
    (([⟨0, "a", some 1, 3600000000⟩, ⟨1, "b", some 3, 3600000000⟩] :
        List SEntry).map (fun e => e.key)).Nodup :=
  c6_key_uniqueness false 2 3600
    [SOp.commit "a" true (some 1), SOp.commit "b" true (some 2),
     SOp.reuse "a", SOp.commit "b" true (some 3)]
    ⟨false, 2, 3600, [⟨0, "a", some 1, 3600000000⟩, ⟨1, "b", some 3, 3600000000⟩], 2, [0, 1]⟩
    [] (by decide)

/-- C8: every entry is destroyed at most once — over any event sequence
the destruction log never repeats a node identity, and once an identity is
in the log its sul is no longer armed, so a later expire event for it is a
no-op (fires nothing, frees nothing). -/
theorem c8_destroy_once (dis : Bool) (c t : Nat) (ops : List SOp)
    (st : VhState) (log : List Nat)
    (hrun : runOps (initVh dis c t) ops = some (st, log)) :
    log.Nodup ∧ ∀ i ∈ log, i ∉ st.armed ∧ stepOp st (SOp.expire i) = some (st, []) := by
  have hinv := runOps_inv ops (initVh dis c t) [] st log (init_inv dis c t) hrun
  rw [List.nil_append] at hinv
  obtain ⟨i1, i2, i3, i4, i5, i6, i7, i8, i9, i10⟩ := hinv
  refine ⟨i5, ?_⟩
  intro i hi2
  have hnarm : i ∉ st.armed := fun hc => i7 i hi2 (i8 i hc)
  refine ⟨hnarm, ?_⟩
  rw [stepOp, if_neg hnarm]

/-- C8 witness: after a capacity eviction destroyed entry 0, a later expiry
event for entry 0 is a no-op and the log holds it once. -/
theorem c8_destroy_once_witness :
    ([0] : List Nat).Nodup ∧
    (0 ∉ (⟨false, 1, 3600, [⟨1, "b", some 2, 3600000000⟩], 2, [1]⟩ : VhState).armed ∧
      stepOp ⟨false, 1, 3600, [⟨1, "b", some 2, 3600000000⟩], 2, [1]⟩ (SOp.expire 0) =
        some (⟨false, 1, 3600, [⟨1, "b", some 2, 3600000000⟩], 2, [1]⟩, [])) :=
  ⟨(c8_destroy_once false 1 3600 [SOp.commit "a" true (some 1), SOp.commit "b" true (some 2)]
      ⟨false, 1, 3600, [⟨1, "b", some 2, 3600000000⟩], 2, [1]⟩ [0] (by decide)).1,
   (c8_destroy_once false 1 3600 [SOp.commit "a" true (some 1), SOp.commit "b" true (some 2)]
      ⟨false, 1, 3600, [⟨1, "b", some 2, 3600000000⟩], 2, [1]⟩ [0] (by decide)).2 0
      (List.mem_singleton.mpr rfl)⟩

/-- C5: the LRU ordering invariant. (a) A reuse hit moves the touched
entry to the tail of the list, preserving the order of the others; (b) a
successful refresh (commit hit) does the same; (c) consequently, with the
store at capacity, after a reuse hit on key `k` a commit of a fresh key
evicts exactly the head of the post-reuse list — the least recently
touched entry — and that entry is not the one the hit moved to the tail. -/
theorem c5_lru_order (st : VhState) (k fresh : String) (x : Nat)
    (pre : List SEntry) (e : SEntry) (post : List SEntry)
    (h0 : SEntry) (t0 : List SEntry) :
    (st.disable = false → st.sessions = pre ++ e :: post → e.key = k →
      (∀ y ∈ pre, y.key ≠ k) →
      (lws_tls_reuse_session st k).vh.sessions = pre ++ post ++ [e] ∧
      (lws_tls_reuse_session st k).vh.sessions.getLast? = some e) ∧
    (st.disable = false → st.sessions = pre ++ e :: post → e.key = k →
      (∀ y ∈ pre, y.key ≠ k) → ∀ aOk,
      lws_tls_session_new_mbedtls st k aOk (some x) =
        some ⟨{ st with sessions := pre ++ post ++ [{ e with sess := some x }] },
              true, [], false⟩ ∧
      (pre ++ post ++ [{ e with sess := some x }]).getLast? =
        some { e with sess := some x }) ∧
    (st.disable = false → st.sessions = pre ++ e :: post → e.key = k →
      (∀ y ∈ pre, y.key ≠ k) → pre ++ post = h0 :: t0 →
      st.sessions.length = st.cmax →
      (st.sessions.map (fun y => y.eid)).Nodup →
      (∀ y ∈ st.sessions, y.key ≠ fresh) →
      (lws_tls_reuse_session st k).vh.sessions = h0 :: (t0 ++ [e]) ∧
      lws_tls_session_new_mbedtls (lws_tls_reuse_session st k).vh fresh true (some x) =
        some ⟨{ st with
                  sessions := (t0 ++ [e]) ++
                    [⟨st.nextEid, fresh, some x, st.ttl * 1000000⟩],
                  armed := st.armed.erase h0.eid ++ [st.nextEid],
                  nextEid := st.nextEid + 1 }, true, [h0.eid], true⟩ ∧
      h0.eid ≠ e.eid) := by
  refine ⟨?_, ?_, ?_⟩
  · intro hd hs hk hp
    have hl := lookup_parts st.sessions pre e post k hs hk hp
    have hre : lws_tls_reuse_session st k =
        ⟨{ st with sessions := pre ++ post ++ [e] }, true, true, some e.sess⟩ := by
      simp [lws_tls_reuse_session, hd, hl]
    rw [hre]
    refine ⟨rfl, ?_⟩
    dsimp only
    exact List.getLast?_concat _
  · intro hd hs hk hp aOk
    have hl := lookup_parts st.sessions pre e post k hs hk hp
    refine ⟨by simp [lws_tls_session_new_mbedtls, hd, hl], ?_⟩
    exact List.getLast?_concat _
  · intro hd hs hk hp hpp hcap hnd hfresh
    have hl := lookup_parts st.sessions pre e post k hs hk hp
    have hre : lws_tls_reuse_session st k =
        ⟨{ st with sessions := pre ++ post ++ [e] }, true, true, some e.sess⟩ := by
      simp [lws_tls_reuse_session, hd, hl]
    have hshape : pre ++ post ++ [e] = h0 :: (t0 ++ [e]) := by
      rw [hpp, List.cons_append]
    have hperm := perm_move_to_tail pre post e
    have hne : h0.eid ≠ e.eid := by
      rw [hs] at hnd
      rw [List.map_append, List.map_cons] at hnd
      obtain ⟨hnp, hnrest, hdisj⟩ := List.nodup_append.mp hnd
      have hh0 : h0 ∈ pre ++ post := by
        rw [hpp]; exact List.mem_cons_self _ _
      intro hEq
      rcases List.mem_append.mp hh0 with hmem | hmem
      · exact hdisj (List.mem_map_of_mem (fun y => y.eid) hmem)
          (by rw [hEq]; exact List.mem_cons_self _ _)
      · have : e.eid ∈ post.map (fun y => y.eid) := by
          rw [← hEq]; exact List.mem_map_of_mem (fun y => y.eid) hmem
        exact (List.nodup_cons.mp hnrest).1 this
    refine ⟨by rw [hre]; exact hshape, ?_, hne⟩
    rw [hre]
    dsimp only
    have hcommit := commit_evict_insert { st with sessions := pre ++ post ++ [e] }
      fresh x h0 (t0 ++ [e]) hd hshape
      (by
        intro y hy
        dsimp only at hy
        have hy2 : y ∈ st.sessions := by
          rw [hs]
          exact hperm.mem_iff.mpr hy
        exact hfresh y hy2)
      (by
        dsimp only
        rw [hs] at hcap
        calc (pre ++ post ++ [e]).length = (pre ++ e :: post).length := by simp
          _ = st.cmax := hcap)
      (by
        dsimp only
        rw [hs] at hnd
        exact ((hperm.map (fun y => y.eid)).nodup hnd :))
    exact hcommit

/-- C5 witness: a full capacity-2 store [a, b]; a reuse hit on "a" reorders
to [b, a]; a commit of fresh key "c" evicts entry 1 ("b", the current
head), not entry 0 ("a"). -/
theorem c5_lru_order_witness :
    (lws_tls_reuse_session ⟨false, 2, 3600, [⟨0, "a", some 1, 7⟩, ⟨1, "b", some 2, 7⟩], 2,
        [0, 1]⟩ "a").vh.sessions = [⟨1, "b", some 2, 7⟩, ⟨0, "a", some 1, 7⟩] ∧
    lws_tls_session_new_mbedtls
        (lws_tls_reuse_session ⟨false, 2, 3600, [⟨0, "a", some 1, 7⟩, ⟨1, "b", some 2, 7⟩], 2,
          [0, 1]⟩ "a").vh "c" true (some 9) =
      some ⟨⟨false, 2, 3600, [⟨0, "a", some 1, 7⟩, ⟨2, "c", some 9, 3600000000⟩], 3, [0, 2]⟩,
            true, [1], true⟩ ∧
    (1 : Nat) ≠ 0 :=
  (c5_lru_order ⟨false, 2, 3600, [⟨0, "a", some 1, 7⟩, ⟨1, "b", some 2, 7⟩], 2, [0, 1]⟩
    "a" "c" 9 [] ⟨0, "a", some 1, 7⟩ [⟨1, "b", some 2, 7⟩] ⟨1, "b", some 2, 7⟩ []).2.2
    rfl rfl rfl (by intro y hy; cases hy) rfl rfl (by decide) (by decide)

theorem charOfDigit_toNat : ∀ d : Nat, d < 10 → (Char.ofNat (48 + d)).toNat = 48 + d := by
  decide

theorem charOfDigit_ne_colon : ∀ d : Nat, d < 10 → Char.ofNat (48 + d) ≠ ':' := by
  decide

theorem natCharsAux_digits : ∀ (fuel n : Nat), ∀ c ∈ natCharsAux fuel n,
    ∃ d, d < 10 ∧ c = Char.ofNat (48 + d) := by
  intro fuel
  induction fuel with
  | zero => intro n c hc; simp [natCharsAux] at hc
  | succ f ih =>
    intro n c hc
    by_cases hn : n = 0
    · simp [natCharsAux, hn] at hc
    · simp only [natCharsAux, if_neg hn] at hc
      rcases List.mem_append.mp hc with h1 | h1
      · exact ih (n / 10) c h1
      · rw [List.mem_singleton] at h1
        exact ⟨n % 10, Nat.mod_lt n (by omega), h1⟩

theorem natChars_no_colon (n : Nat) : ':' ∉ natChars n := by
  rw [natChars]
  by_cases hn : n = 0
  · simp [hn]
  · rw [if_neg hn]
    intro hc
    obtain ⟨d, hd, hcd⟩ := natCharsAux_digits n n ':' hc
    exact charOfDigit_ne_colon d hd hcd.symm

theorem chVal_append_digit (l : List Char) (c : Char) :
    chVal (l ++ [c]) = chVal l * 10 + (c.toNat - 48) := by
  rw [chVal, chVal, List.foldl_append]
  rfl

theorem chVal_natCharsAux : ∀ (fuel n : Nat), n ≤ fuel → chVal (natCharsAux fuel n) = n := by
  intro fuel
  induction fuel with
  | zero =>
    intro n hn
    have : n = 0 := Nat.le_zero.mp hn
    subst this
    rfl
  | succ f ih =>
    intro n hn
    by_cases hn0 : n = 0
    · subst hn0; rfl
    · simp only [natCharsAux, if_neg hn0]
      rw [chVal_append_digit]
      have hdiv : n / 10 ≤ f := by
        have h1 : n / 10 < n := Nat.div_lt_self (Nat.pos_of_ne_zero hn0) (by omega)
        omega
      rw [ih (n / 10) hdiv]
      rw [charOfDigit_toNat (n % 10) (Nat.mod_lt n (by omega))]
      omega

theorem chVal_natChars (n : Nat) : chVal (natChars n) = n := by
  rw [natChars]
  by_cases h : n = 0
  · subst h; rfl
  · rw [if_neg h]
    exact chVal_natCharsAux n n le_rfl

theorem natChars_injective (a b : Nat) (h : natChars a = natChars b) : a = b := by
  have ha := chVal_natChars a
  rw [h, chVal_natChars] at ha
  exact ha.symm

theorem natCharsAux_length : ∀ (fuel : Nat), ∀ (k n : Nat), n < 10 ^ k →
    (natCharsAux fuel n).length ≤ k := by
  intro fuel
  induction fuel with
  | zero => intro k n _; simp [natCharsAux]
  | succ f ih =>
    intro k n h
    by_cases hn0 : n = 0
    · simp [natCharsAux, hn0]
    · simp only [natCharsAux, if_neg hn0]
      rw [List.length_append]
      cases k with
      | zero =>
        have h1 : n < 1 := by simpa using h
        exact absurd (by omega : n = 0) hn0
      | succ j =>
        have hdiv : n / 10 < 10 ^ j := by
          rw [Nat.div_lt_iff_lt_mul (by omega : 0 < 10)]
          calc n < 10 ^ (j + 1) := h
            _ = 10 ^ j * 10 := by ring
        simpa using Nat.add_le_add (ih j (n / 10) hdiv) (le_refl 1)

theorem natChars_length_port (p : Nat) (hp : p < 65536) : (natChars p).length ≤ 5 := by
  rw [natChars]
  by_cases h : p = 0
  · simp [h]
  · rw [if_neg h]
    exact natCharsAux_length p 5 p (lt_trans hp (by norm_num))

theorem name_format (name addr : List Char) (port : Nat)
    (hlen : name.length + addr.length ≤ 64) (hport : port < 65536) :
    lws_tls_session_name_from_wsi name addr port =
      name ++ '.' :: (addr ++ ':' :: natChars port) := by
  simp only [lws_tls_session_name_from_wsi]
  have hc1 : lwsSnprintf (name ++ ['.']) SNLEN = name ++ ['.'] := by
    rw [lwsSnprintf]
    apply List.take_of_length_le
    rw [List.length_append]
    simp only [List.length_singleton, SNLEN]
    omega
  rw [hc1]
  have hlen1 : (name ++ ['.']).length = name.length + 1 := by simp
  rw [hlen1]
  have hcond : 8 ≤ SNLEN - (name.length + 1) := by
    simp only [SNLEN]
    omega
  rw [if_pos hcond]
  have haddr : sa46WriteNumericAddress addr (SNLEN - (name.length + 1) - 8) = addr := by
    rw [sa46WriteNumericAddress]
    apply List.take_of_length_le
    simp only [SNLEN]
    omega
  rw [haddr]
  have hport2 : lwsSnprintf (':' :: natChars port) 8 = ':' :: natChars port := by
    rw [lwsSnprintf]
    apply List.take_of_length_le
    have h5 := natChars_length_port port hport
    rw [List.length_cons]
    omega
  rw [hport2]
  simp

theorem sep_split_right (sep : Char) :
    ∀ (u u2 p p2 : List Char), sep ∉ p → sep ∉ p2 →
      u ++ sep :: p = u2 ++ sep :: p2 → u = u2 ∧ p = p2 := by
  intro u
  induction u with
  | nil =>
    intro u2 p p2 hp hp2 h
    cases u2 with
    | nil => simpa using h
    | cons b t =>
      rw [List.nil_append, List.cons_append] at h
      injection h with hb hrest
      exact absurd (hrest ▸ List.mem_append_right t (List.mem_cons_self sep p2)) hp
  | cons a u1 ih =>
    intro u2 p p2 hp hp2 h
    cases u2 with
    | nil =>
      rw [List.nil_append, List.cons_append] at h
      injection h with hb hrest
      exact absurd (hrest.symm ▸ List.mem_append_right u1 (List.mem_cons_self sep p)) hp2
    | cons b t =>
      rw [List.cons_append, List.cons_append] at h
      injection h with hb hrest
      obtain ⟨h1, h2⟩ := ih t p p2 hp hp2 hrest
      exact ⟨by rw [hb, h1], h2⟩

theorem dot_mem_takeWhile : ∀ (x rest : List Char), ':' ∉ x →
    '.' ∈ (x ++ '.' :: rest).takeWhile (fun c => c != ':') := by
  intro x
  induction x with
  | nil =>
    intro rest _
    simp [List.takeWhile_cons]
  | cons c t ih =>
    intro rest h
    have hc : c ≠ ':' := fun hEq => h (hEq ▸ List.mem_cons_self c t)
    rw [List.cons_append, List.takeWhile_cons, if_pos (by simp [hc])]
    exact List.mem_cons_of_mem c (ih rest (fun hx => h (List.mem_cons_of_mem c hx)))

theorem v6_dot_after_colon (a x y : List Char) (h6 : isV6 a) (hsplit : a = x ++ '.' :: y) :
    ':' ∈ x := by
  by_contra hnx
  exact h6.2 (hsplit ▸ dot_mem_takeWhile x y hnx)

theorem validAddr_no_extend (k a a2 : List Char) (hk : ':' ∉ k)
    (ha : validAddr a) (ha2 : validAddr a2) : a ≠ k ++ '.' :: a2 := by
  intro hEq
  cases ha with
  | inl h4 =>
    obtain ⟨hc, hcount⟩ := h4
    cases ha2 with
    | inl h42 =>
      obtain ⟨hc2, hcount2⟩ := h42
      rw [hEq, List.count_append, List.count_cons_self] at hcount
      omega
    | inr h62 =>
      exact hc (hEq ▸ List.mem_append_right k (List.mem_cons_of_mem '.' h62.1))
  | inr h6 =>
    exact hk (v6_dot_after_colon a k a2 h6 hEq)

theorem dot_split_inj (n n2 a a2 : List Char)
    (hn : ':' ∉ n) (hn2 : ':' ∉ n2)
    (ha : validAddr a) (ha2 : validAddr a2)
    (h : n ++ '.' :: a = n2 ++ '.' :: a2) : n = n2 ∧ a = a2 := by
  rcases List.append_eq_append_iff.mp h with ⟨k, hk1, hk2⟩ | ⟨k, hk1, hk2⟩
  · cases k with
    | nil =>
      rw [List.append_nil] at hk1
      rw [List.nil_append] at hk2
      injection hk2 with _ hrest
      exact ⟨hk1.symm, hrest⟩
    | cons c k2 =>
      rw [List.cons_append] at hk2
      injection hk2 with hc hrest
      have hk2c : ':' ∉ k2 := by
        intro hmem
        exact hn2 (hk1 ▸ List.mem_append_right n (List.mem_cons_of_mem c hmem))
      exact absurd hrest (validAddr_no_extend k2 a a2 hk2c ha ha2)
  · cases k with
    | nil =>
      rw [List.append_nil] at hk1
      rw [List.nil_append] at hk2
      injection hk2 with _ hrest
      exact ⟨hk1, hrest.symm⟩
    | cons c k2 =>
      rw [List.cons_append] at hk2
      injection hk2 with hc hrest
      have hk2c : ':' ∉ k2 := by
        intro hmem
        exact hn (hk1 ▸ List.mem_append_right n2 (List.mem_cons_of_mem c hmem))
      exact absurd hrest (validAddr_no_extend k2 a2 a hk2c ha2 ha)

/-- C3 (amended): the derived session name is a pure function of
(owner name, peer address literal, port) in the format
`<owner>.<address>:<port>`, and it is injective over triples that fit the
fixed 74-byte buffer without truncation (owner name plus address at most
64 bytes, 16-bit port) with a colon-free owner name and a numeric IPv4 or
IPv6 address literal.  With longer inputs the buffer truncates and
distinct triples can collide (see the counterexample). -/
theorem c3_key_derivation_amended (name addr : List Char) (port : Nat)
    (name2 addr2 : List Char) (port2 : Nat)
    (hg : GoodKey name addr port) (hg2 : GoodKey name2 addr2 port2) :
    lws_tls_session_name_from_wsi name addr port =
      name ++ '.' :: (addr ++ ':' :: natChars port) ∧
    (lws_tls_session_name_from_wsi name addr port =
        lws_tls_session_name_from_wsi name2 addr2 port2 →
      name = name2 ∧ addr = addr2 ∧ port = port2) := by
  obtain ⟨hlen, hport, hn, ha⟩ := hg
  obtain ⟨hlen2, hport2, hn2, ha2⟩ := hg2
  have hf := name_format name addr port hlen hport
  have hf2 := name_format name2 addr2 port2 hlen2 hport2
  refine ⟨hf, ?_⟩
  intro hEq
  rw [hf, hf2] at hEq
  have hgrp : ∀ (n a pd : List Char),
      n ++ '.' :: (a ++ ':' :: pd) = (n ++ '.' :: a) ++ ':' :: pd := by
    intro n a pd
    simp
  rw [hgrp name addr (natChars port), hgrp name2 addr2 (natChars port2)] at hEq
  obtain ⟨hmid, hpd⟩ := sep_split_right ':' (name ++ '.' :: addr) (name2 ++ '.' :: addr2)
    (natChars port) (natChars port2) (natChars_no_colon port) (natChars_no_colon port2) hEq
  obtain ⟨hname, haddr⟩ := dot_split_inj name name2 addr addr2 hn hn2 ha ha2 hmid
  exact ⟨hname, haddr, natChars_injective port port2 hpd⟩

/-- C3 amended witness: a short owner name with a dotted-quad address is
formatted untruncated as `vh.1.2.3.4:443`. -/
theorem c3_key_derivation_amended_witness :
    lws_tls_session_name_from_wsi ['v', 'h'] ['1', '.', '2', '.', '3', '.', '4'] 443 =
      ['v', 'h'] ++ '.' :: (['1', '.', '2', '.', '3', '.', '4'] ++ ':' :: natChars 443) :=
  (c3_key_derivation_amended ['v', 'h'] ['1', '.', '2', '.', '3', '.', '4'] 443
    ['v', 'h'] ['1', '.', '2', '.', '3', '.', '4'] 443 (by decide) (by decide)).1

/-- C3 counterexample: two distinct (owner, address, port) triples — the
same 65-byte owner name with two different dotted-quad addresses — derive
the same key: the owner name and dot fill the 74-byte buffer up to the 8
bytes reserved for the port tail, leaving zero bytes for the address,
which is truncated away entirely.  This refutes injectivity of
`lws_tls_session_name_from_wsi` as claimed for all distinct triples. -/
theorem c3_key_derivation_counterexample :
    (List.replicate 65 'a', ['1', '.', '2', '.', '3', '.', '4'], 443) ≠
      (List.replicate 65 'a', ['9', '.', '9', '.', '9', '.', '9'], 443) ∧
    lws_tls_session_name_from_wsi (List.replicate 65 'a')
        ['1', '.', '2', '.', '3', '.', '4'] 443 =
      lws_tls_session_name_from_wsi (List.replicate 65 'a')
        ['9', '.', '9', '.', '9', '.', '9'] 443 := by
  constructor
  · decide
  · decide
